import Mathlib

/-!
# Verification of the gitops-push action

A shallow embedding of the core logic of the `gitops-push` GitHub action:

* `src/utils/git.ts` — `commitAndPush` (manifest placement, change
  detection, commit, push with retry);
* `src/utils/argocd-app-manifest.ts` — `generateValuesYaml` (default
  values document plus lodash deep merge of user overrides) and
  `generateArgoCDAppManifest` (helm rendering with a temporary values
  file);
* `src/main.ts` — `run` (top-level orchestration and working-copy
  cleanup).

External collaborators are modelled at their documented boundary:

* `exec.exec` / `execWithOutput` results are supplied as environment
  parameters (exit codes, per-attempt push success, error messages);
* Node's `path.posix.join`, `path.posix.normalize` and `path.basename`
  are modelled on character lists;
* lodash `_.merge` is modelled on a YAML document tree type following
  its documented recursive-merge semantics (plain mappings merged
  recursively, sequences merged index-wise, scalar sources assigned,
  falsy top-level sources skipped, string top-level sources spread by
  character index).
-/

namespace GitopsPush

/-! ## Push with retry (`commitAndPush`, src/utils/git.ts lines 234-257)

The source loops `for (let attempt = 0; attempt <= maxRetries; attempt++)`:
a successful `git push` returns at once; a failed attempt with
`attempt < maxRetries` warns and sleeps `retryDelays[attempt]`
milliseconds before the next attempt; a failed final attempt rethrows,
and the surrounding `catch` wraps the message as
`Failed to commit and push changes: <message>`.

The environment is a predicate `succ : Nat → Bool` telling whether the
push primitive succeeds on attempt number `k` (0-based) and a function
`err : Nat → String` giving the error message of attempt `k` when it
fails. -/

/-- `maxRetries` from the source: 4 retries after the initial attempt. -/
def maxRetries : Nat := 4

/-- `retryDelays` from the source, in milliseconds. -/
def retryDelays : List Nat := [2000, 4000, 8000, 16000]

/-- Result of the push phase: how many attempts were made, which delays
were slept between consecutive attempts, and the outcome. -/
inductive PushResult where
  | success (attempts : Nat) (delays : List Nat)
  | failure (attempts : Nat) (delays : List Nat) (msg : String)
  deriving DecidableEq, Repr

/-- The push retry loop. `remaining` is `maxRetries - attempt`, the
number of retries still allowed; `attempt` is the 0-based attempt
counter; `acc` accumulates the delays slept so far (in order). -/
def pushLoop (succ : Nat → Bool) (err : Nat → String) :
    Nat → Nat → List Nat → PushResult
  | 0, attempt, acc =>
      if succ attempt then .success (attempt + 1) acc.reverse
      else .failure (attempt + 1) acc.reverse (err attempt)
  | remaining + 1, attempt, acc =>
      if succ attempt then .success (attempt + 1) acc.reverse
      else pushLoop succ err remaining (attempt + 1)
        (retryDelays.getD attempt 0 :: acc)

/-- The push phase of `commitAndPush`, starting at attempt 0 with the
full retry budget. -/
def pushPhase (succ : Nat → Bool) (err : Nat → String) : PushResult :=
  pushLoop succ err maxRetries 0 []

/-! ## Node `path.posix` model

`commitAndPush` and `generateValuesYaml` build paths with Node's
`path.join`, which filters out empty parts, joins the rest with `/` and
normalizes the result (collapsing repeated separators, resolving `.`
and `..`, keeping a leading `/` and a trailing `/`).  We model it on
the character-list representation of `String`. -/

/-- Split a character list on `/`, keeping empty chunks. -/
def splitSep : List Char → List (List Char)
  | [] => [[]]
  | c :: cs =>
      if c = '/' then [] :: splitSep cs
      else
        match splitSep cs with
        | [] => [[c]]
        | h :: t => (c :: h) :: t

/-- The nonempty `/`-separated segments of a string (in order). -/
def segsOf (s : String) : List String :=
  ((splitSep s.data).filter (fun l => l ≠ [])).map (fun l => String.mk l)

/-- Does the string start with `/`? -/
def startsWithSlash (s : String) : Bool :=
  match s.data with
  | [] => false
  | c :: _ => c = '/'

/-- Does the string end with `/`? -/
def endsWithSlash (s : String) : Bool :=
  s.data.getLast? = some '/'

/-- Join segments with a single `/` between them (no leading or
trailing separator). -/
def renderSegs : List String → String
  | [] => ""
  | [s] => s
  | s :: rest => s ++ "/" ++ renderSegs rest

/-- Node's segment normalization: drop `.`, resolve `..` against the
segment stack (`acc`, most recent first); on an absolute path a `..` at
the root is dropped, on a relative path leading `..` segments are
kept. -/
def normAux (abs : Bool) (acc : List String) : List String → List String
  | [] => acc.reverse
  | s :: rest =>
      if s = "." then normAux abs acc rest
      else if s = ".." then
        match acc with
        | [] => if abs then normAux abs [] rest else normAux abs [".."] rest
        | a :: acc' =>
            if a = ".." ∧ abs = false then normAux abs (".." :: a :: acc') rest
            else normAux abs acc' rest
      else normAux abs (s :: acc) rest

/-- Node `path.posix.normalize`. -/
def normalizePath (p : String) : String :=
  let abs := startsWithSlash p
  let trail := endsWithSlash p
  match normAux abs [] (segsOf p) with
  | [] => cond abs "/" (cond trail "./" ".")
  | segs => (cond abs "/" "") ++ renderSegs segs ++ (cond trail "/" "")

/-- Node `path.posix.join`: drop empty parts, join with `/`, and
normalize; an all-empty join yields `"."`. -/
def pathJoin (parts : List String) : String :=
  let ps := parts.filter (fun s => s ≠ "")
  let joined := renderSegs ps
  if joined = "" then "." else normalizePath joined

/-- Node `path.posix.basename` (no suffix argument): the last nonempty
segment, or `""` when there is none. -/
def pathBasename (s : String) : String :=
  (segsOf s).getLastD ""

/-! ## `commitAndPush` (src/utils/git.ts lines 108-262) -/

/-- The string arguments of `commitAndPush`, in source order. -/
structure CPArgs where
  gitopsRepoLocalPath : String
  gitopsPath : String
  gitopsBranch : String
  applicationName : String
  environment : String
  argocdAppManifestPath : String
  applicationManifestsPath : String
  deriving Repr

/-- The outcomes of the external effects `commitAndPush` consults:
whether `fs.existsSync(applicationManifestsPath)` holds, the
`fs.promises.readdir` entries (name and `isDirectory()` flag), the exit
code of `git diff --cached --quiet` (run with `ignoreReturnCode: true`,
so it never throws and the raw code is observed), and the behaviour of
`git push` per attempt. -/
structure CPEnv where
  manifestsPathExists : Bool
  manifestEntries : List (String × Bool)
  gitDiffExitCode : Nat
  pushSucceeds : Nat → Bool
  pushErrMsg : Nat → String

/-- Observable trace of one `commitAndPush` invocation. -/
structure CPTrace where
  argocdAppTargetDir : String
  argocdAppTargetFile : String
  appManifestsTargetDir : String
  pointerCopied : Bool
  copiedEntries : List (String × String × Bool)
  warnedMissingPath : Bool
  stagedPaths : List String
  committed : Bool
  pushBranch : String
  pushAttempts : Nat
  pushDelays : List Nat
  result : Except String Unit

/-- The commit message built by the source (template literal at
src/utils/git.ts lines 224-228). -/
def commitMessageFor (a : CPArgs) : String :=
  "Deploy " ++ a.applicationName ++ " to " ++ a.environment ++
  "\n\nUpdated deployment manifests for " ++ a.applicationName ++
  " in " ++ a.environment ++ " environment.\n- ArgoCD application manifest" ++
  "\n- Application manifests from " ++ pathBasename a.applicationManifestsPath

/-- Model of `commitAndPush`.  Filesystem and git primitives other than
the diff check and the push (`io.mkdirP`, `io.cp`, `git add`,
`git commit`) are taken to succeed; the branching behaviour under test —
placement paths, the missing-manifests warning, the staged-diff check
and the push retry — is modelled exactly as in the source. -/
def commitAndPushModel (a : CPArgs) (env : CPEnv) : CPTrace :=
  let gitopsBasePath := pathJoin [a.gitopsRepoLocalPath, a.gitopsPath]
  let argocdAppTargetDir :=
    pathJoin [gitopsBasePath, "argocd-apps", a.applicationName]
  let argocdAppTargetFile :=
    pathJoin [argocdAppTargetDir, a.environment ++ ".yaml"]
  let appManifestsTargetDir :=
    pathJoin [gitopsBasePath, a.applicationName, a.environment,
      a.applicationManifestsPath]
  let copied :=
    if env.manifestsPathExists then
      env.manifestEntries.map (fun e =>
        (pathJoin [a.applicationManifestsPath, e.1],
         pathJoin [appManifestsTargetDir, e.1], e.2))
    else []
  let warned := !env.manifestsPathExists
  let staged := ["./argocd-apps", "./" ++ a.applicationName]
  let pushBranch := if a.gitopsBranch = "" then "HEAD" else a.gitopsBranch
  if env.gitDiffExitCode = 0 then
    { argocdAppTargetDir := argocdAppTargetDir
      argocdAppTargetFile := argocdAppTargetFile
      appManifestsTargetDir := appManifestsTargetDir
      pointerCopied := true
      copiedEntries := copied
      warnedMissingPath := warned
      stagedPaths := staged
      committed := false
      pushBranch := pushBranch
      pushAttempts := 0
      pushDelays := []
      result := .ok () }
  else
    match pushPhase env.pushSucceeds env.pushErrMsg with
    | .success n ds =>
        { argocdAppTargetDir := argocdAppTargetDir
          argocdAppTargetFile := argocdAppTargetFile
          appManifestsTargetDir := appManifestsTargetDir
          pointerCopied := true
          copiedEntries := copied
          warnedMissingPath := warned
          stagedPaths := staged
          committed := true
          pushBranch := pushBranch
          pushAttempts := n
          pushDelays := ds
          result := .ok () }
    | .failure n ds msg =>
        { argocdAppTargetDir := argocdAppTargetDir
          argocdAppTargetFile := argocdAppTargetFile
          appManifestsTargetDir := appManifestsTargetDir
          pointerCopied := true
          copiedEntries := copied
          warnedMissingPath := warned
          stagedPaths := staged
          committed := true
          pushBranch := pushBranch
          pushAttempts := n
          pushDelays := ds
          result := .error ("Failed to commit and push changes: " ++ msg) }

/-- Exit-status contract of `git diff --cached --quiet`: exit code 0
exactly when the staged tree equals the committed tree (trees modelled
as path/content association lists). -/
def gitDiffQuietExit (staged headTree : List (String × String)) : Nat :=
  if staged = headTree then 0 else 1

/-- Push phase characterization, success case: if attempt `k` (0-based,
`k < 5`) is the first successful one, the loop makes exactly `k + 1`
attempts, sleeping the first `k` scheduled delays, and returns
success. -/
theorem pushPhase_success (succ : Nat → Bool) (err : Nat → String) (k : Nat)
    (hk : k < 5) (hs : succ k = true) (hf : ∀ j, j < k → succ j = false) :
    pushPhase succ err = .success (k + 1) (retryDelays.take k) := by
  interval_cases k <;>
    simp_all [pushPhase, pushLoop, retryDelays, List.getD]

/-- Push phase characterization, exhaustion case: if all five attempts
fail, the loop makes exactly 5 attempts, sleeps all four scheduled
delays, and fails with the error of the final attempt. -/
theorem pushPhase_exhausted (succ : Nat → Bool) (err : Nat → String)
    (hf : ∀ j, j < 5 → succ j = false) :
    pushPhase succ err = .failure 5 retryDelays (err 4) := by
  have h0 := hf 0 (by norm_num)
  have h1 := hf 1 (by norm_num)
  have h2 := hf 2 (by norm_num)
  have h3 := hf 3 (by norm_num)
  have h4 := hf 4 (by norm_num)
  simp [pushPhase, pushLoop, retryDelays, List.getD, h0, h1, h2, h3, h4]

/-- C1: for every execution of `commitAndPush` that reaches the push
step (non-zero staged-diff exit code), push attempts are made until one
succeeds, up to 5 total, with delays 2000 ms, 4000 ms, 8000 ms and
16000 ms between consecutive attempts.  If the first successful attempt
is attempt `k` (0-based), exactly `k + 1` attempts are made, the first
`k` delays are slept, and no error is raised (so failing twice and then
succeeding means exactly 3 attempts); if all 5 attempts fail, the last
push error is propagated wrapped as
`Failed to commit and push changes: <message>`. -/
theorem commitAndPush_push_retry :
    (∀ (a : CPArgs) (env : CPEnv) (k : Nat), env.gitDiffExitCode ≠ 0 →
      k < 5 → env.pushSucceeds k = true →
      (∀ j, j < k → env.pushSucceeds j = false) →
      (commitAndPushModel a env).pushAttempts = k + 1 ∧
      (commitAndPushModel a env).pushDelays = retryDelays.take k ∧
      (commitAndPushModel a env).result = .ok ()) ∧
    (∀ (a : CPArgs) (env : CPEnv), env.gitDiffExitCode ≠ 0 →
      (∀ j, j < 5 → env.pushSucceeds j = false) →
      (commitAndPushModel a env).pushAttempts = 5 ∧
      (commitAndPushModel a env).pushDelays = retryDelays ∧
      (commitAndPushModel a env).result =
        .error ("Failed to commit and push changes: " ++ env.pushErrMsg 4)) := by
  constructor
  · intro a env k hd hk hs hf
    have hp := pushPhase_success env.pushSucceeds env.pushErrMsg k hk hs hf
    simp [commitAndPushModel, hd, hp]
  · intro a env hd hf
    have hp := pushPhase_exhausted env.pushSucceeds env.pushErrMsg hf
    simp [commitAndPushModel, hd, hp]

/-- Sample arguments used by concrete witnesses. -/
def sampleArgs : CPArgs :=
  { gitopsRepoLocalPath := "/tmp/gitops-repo"
    gitopsPath := ""
    gitopsBranch := "main"
    applicationName := "test-app"
    environment := "production"
    argocdAppManifestPath := "/tmp/argocd-app-manifest.yaml"
    applicationManifestsPath := "/path/to/manifests" }

/-- Environment whose push primitive fails twice and then succeeds. -/
def envFailTwice : CPEnv :=
  { manifestsPathExists := true
    manifestEntries := []
    gitDiffExitCode := 1
    pushSucceeds := fun k => decide (2 ≤ k)
    pushErrMsg := fun _ => "network error" }

/-- Environment whose push primitive always fails. -/
def envAlwaysFail : CPEnv :=
  { manifestsPathExists := true
    manifestEntries := []
    gitDiffExitCode := 1
    pushSucceeds := fun _ => false
    pushErrMsg := fun _ => "network error" }

/-- Witness for C1: concrete fail-twice-then-succeed run makes exactly
3 attempts with delays 2000 ms and 4000 ms and raises no error; a
concrete always-failing run makes 5 attempts and fails wrapped. -/
theorem commitAndPush_push_retry_witness :
    (commitAndPushModel sampleArgs envFailTwice).pushAttempts = 3 ∧
    (commitAndPushModel sampleArgs envFailTwice).pushDelays = [2000, 4000] ∧
    (commitAndPushModel sampleArgs envFailTwice).result = .ok () ∧
    (commitAndPushModel sampleArgs envAlwaysFail).pushAttempts = 5 ∧
    (commitAndPushModel sampleArgs envAlwaysFail).result =
      .error "Failed to commit and push changes: network error" := by
  have h1 := commitAndPush_push_retry.1 sampleArgs envFailTwice 2
    (by decide) (by decide) (by decide)
    (by intro j hj; interval_cases j <;> decide)
  have h2 := commitAndPush_push_retry.2 sampleArgs envAlwaysFail
    (by decide) (by intro j hj; rfl)
  refine ⟨h1.1, ?_, h1.2.2, h2.1, h2.2.2⟩
  rw [h1.2.1]; rfl

/-- C4: when the staged diff exits with code 0 the function returns
success without committing and without pushing; a non-zero exit
proceeds to create a commit; and a second run against an
already-up-to-date working copy (staged tree equal to the committed
tree, so the diff contract yields exit code 0) creates no commit. -/
theorem commitAndPush_no_changes_skip :
    (∀ (a : CPArgs) (env : CPEnv), env.gitDiffExitCode = 0 →
      (commitAndPushModel a env).committed = false ∧
      (commitAndPushModel a env).pushAttempts = 0 ∧
      (commitAndPushModel a env).result = .ok ()) ∧
    (∀ (a : CPArgs) (env : CPEnv), env.gitDiffExitCode ≠ 0 →
      (commitAndPushModel a env).committed = true) ∧
    (∀ (a : CPArgs) (env : CPEnv) (t : List (String × String)),
      (commitAndPushModel a
        { env with gitDiffExitCode := gitDiffQuietExit t t }).committed =
        false) := by
  refine ⟨?_, ?_, ?_⟩
  · intro a env hd
    simp [commitAndPushModel, hd]
  · intro a env hd
    cases hp : pushPhase env.pushSucceeds env.pushErrMsg <;>
      simp [commitAndPushModel, hd, hp]
  · intro a env t
    simp [commitAndPushModel, gitDiffQuietExit]

/-- Witness for C4: a concrete run with diff exit code 0 commits
nothing, pushes nothing and succeeds; with exit code 1 a commit is
created. -/
theorem commitAndPush_no_changes_skip_witness :
    (commitAndPushModel sampleArgs
      { envFailTwice with gitDiffExitCode := 0 }).committed = false ∧
    (commitAndPushModel sampleArgs
      { envFailTwice with gitDiffExitCode := 0 }).pushAttempts = 0 ∧
    (commitAndPushModel sampleArgs
      { envFailTwice with gitDiffExitCode := 0 }).result = .ok () ∧
    (commitAndPushModel sampleArgs envFailTwice).committed = true := by
  have h1 := commitAndPush_no_changes_skip.1 sampleArgs
    { envFailTwice with gitDiffExitCode := 0 } rfl
  have h2 := commitAndPush_no_changes_skip.2.1 sampleArgs envFailTwice
    (by decide)
  exact ⟨h1.1, h1.2.1, h1.2.2, h2⟩

/-- C9: the change-detection step treats exactly exit code 0 of the
staged-diff command as "no changes"; every non-zero exit code — the
command is run with `ignoreReturnCode: true`, so even codes meaning the
diff command itself could not run are observed rather than thrown —
makes the function proceed to create a commit. -/
theorem commitAndPush_diff_exit_code_semantics (a : CPArgs) (env : CPEnv) :
    (commitAndPushModel a env).committed = decide (env.gitDiffExitCode ≠ 0) := by
  by_cases hd : env.gitDiffExitCode = 0
  · simp [commitAndPushModel, hd]
  · cases hp : pushPhase env.pushSucceeds env.pushErrMsg <;>
      simp [commitAndPushModel, hd, hp]

/-- C8: a missing `applicationManifestsPath` records a warning, copies
no raw manifests, still writes the pointer manifest, still commits when
the staged diff is non-empty, and never by itself makes the invocation
fail: the result is identical to the same run with the path present
(and no entries to copy), succeeding whenever the diff is empty or the
push succeeds. -/
theorem commitAndPush_missing_manifests_nonfatal (a : CPArgs) (env : CPEnv)
    (h : env.manifestsPathExists = false) :
    (commitAndPushModel a env).warnedMissingPath = true ∧
    (commitAndPushModel a env).copiedEntries = [] ∧
    (commitAndPushModel a env).pointerCopied = true ∧
    (env.gitDiffExitCode ≠ 0 → (commitAndPushModel a env).committed = true) ∧
    (env.gitDiffExitCode = 0 → (commitAndPushModel a env).result = .ok ()) ∧
    (env.pushSucceeds 0 = true → (commitAndPushModel a env).result = .ok ()) ∧
    (commitAndPushModel a env).result =
      (commitAndPushModel a { env with manifestsPathExists := true }).result := by
  have hpush : ∀ hd : ¬ env.gitDiffExitCode = 0, env.pushSucceeds 0 = true →
      (commitAndPushModel a env).result = .ok () := by
    intro hd hs
    have hp := pushPhase_success env.pushSucceeds env.pushErrMsg 0
      (by norm_num) hs (by intro j hj; omega)
    simp [commitAndPushModel, hd, hp]
  by_cases hd : env.gitDiffExitCode = 0
  · simp [commitAndPushModel, hd, h]
  · refine ⟨?_, ?_, ?_, ?_, ?_, ?_, ?_⟩ <;>
      cases hp : pushPhase env.pushSucceeds env.pushErrMsg <;>
        simp_all [commitAndPushModel, hd, h, hp]

/-- Witness for C8: a concrete run with a missing manifests path warns,
writes the pointer manifest, commits and succeeds. -/
theorem commitAndPush_missing_manifests_nonfatal_witness :
    (commitAndPushModel sampleArgs
      { envFailTwice with manifestsPathExists := false }).warnedMissingPath
        = true ∧
    (commitAndPushModel sampleArgs
      { envFailTwice with manifestsPathExists := false }).pointerCopied
        = true ∧
    (commitAndPushModel sampleArgs
      { envFailTwice with manifestsPathExists := false }).committed = true ∧
    (commitAndPushModel sampleArgs
      { envFailTwice with manifestsPathExists := false }).result = .ok () := by
  have h := commitAndPush_missing_manifests_nonfatal sampleArgs
    { envFailTwice with manifestsPathExists := false } rfl
  refine ⟨h.1, h.2.2.1, h.2.2.2.1 (by decide), ?_⟩
  have hp := pushPhase_success (fun k => decide (2 ≤ k)) (fun _ => "network error")
    2 (by norm_num) (by decide) (by intro j hj; interval_cases j <;> decide)
  simp [commitAndPushModel, hp, envFailTwice]

/-! ## `run` (src/main.ts lines 22-149)

`run` executes input parsing, working-copy creation, clone, values
generation, manifest rendering and `commitAndPush` sequentially inside
one `try`.  The `catch` block first attempts `io.rmRF` of the working
copy inside a nested `try` whose `catch` only logs at debug level, then
reports the original error via `core.setFailed`.  There is no `finally`
block: the nested cleanup exists only on the failure path. -/

/-- Outcomes of the stages `run` executes, in source order: `none`
means the stage succeeds, `some msg` that it throws with message `msg`.
`cleanupFails` tells whether the `io.rmRF` in the catch block itself
throws. -/
structure RunEnv where
  inputsError : Option String
  cloneError : Option String
  valuesError : Option String
  manifestError : Option String
  commitPushError : Option String
  cleanupFails : Bool

/-- The first error raised inside `run`'s try block, in source
order. -/
def runFirstError (env : RunEnv) : Option String :=
  (((env.inputsError.or env.cloneError).or env.valuesError).or
    env.manifestError).or env.commitPushError

/-- Observable trace of one `run` invocation. -/
structure RunTrace where
  dirCreated : Bool
  cleanupAttempted : Bool
  cleanedUp : Bool
  cleanupFailureLoggedDebug : Bool
  failureReported : Option String
  deriving DecidableEq, Repr

/-- Model of `run`: on success the try block runs to the end and the
function returns with no cleanup; on the first error the catch block
attempts cleanup (swallowing a cleanup failure with a debug log) and
reports the original error.  The working-copy directory is created
right after input parsing. -/
def runModel (env : RunEnv) : RunTrace :=
  match runFirstError env with
  | none =>
      { dirCreated := true
        cleanupAttempted := false
        cleanedUp := false
        cleanupFailureLoggedDebug := false
        failureReported := none }
  | some msg =>
      { dirCreated := env.inputsError.isNone
        cleanupAttempted := true
        cleanedUp := !env.cleanupFails
        cleanupFailureLoggedDebug := env.cleanupFails
        failureReported := some msg }

/-- An invocation of `run` in which every stage succeeds. -/
def runEnvAllOk : RunEnv :=
  { inputsError := none
    cloneError := none
    valuesError := none
    manifestError := none
    commitPushError := none
    cleanupFails := false }

/-- Counterexample to C5: on a successful invocation the working-copy
directory is created but never destroyed — `run` has no cleanup on the
success exit path, only in its catch block. -/
theorem run_cleanup_counterexample :
    (runModel runEnvAllOk).failureReported = none ∧
    (runModel runEnvAllOk).dirCreated = true ∧
    (runModel runEnvAllOk).cleanupAttempted = false ∧
    (runModel runEnvAllOk).cleanedUp = false := by
  decide

/-- C5 (amended): the working-copy directory is destroyed on every
failure exit path of `run` — whichever stage throws first — and a
failure of that cleanup is swallowed (logged at debug level) so the
originally thrown error is always the reported failure reason; on the
success path no cleanup is performed. -/
theorem run_cleanup_on_failure (env : RunEnv) (msg : String)
    (h : runFirstError env = some msg) :
    (runModel env).cleanupAttempted = true ∧
    (runModel env).cleanedUp = !env.cleanupFails ∧
    (runModel env).cleanupFailureLoggedDebug = env.cleanupFails ∧
    (runModel env).failureReported = some msg := by
  simp [runModel, h]

/-- Witness for the amended C5: a concrete invocation whose
`commitAndPush` stage fails and whose cleanup also fails still reports
the original error, with the cleanup failure logged at debug level. -/
theorem run_cleanup_on_failure_witness :
    (runModel { runEnvAllOk with
        commitPushError := some "push failed", cleanupFails := true
      }).cleanupAttempted = true ∧
    (runModel { runEnvAllOk with
        commitPushError := some "push failed", cleanupFails := true
      }).cleanedUp = false ∧
    (runModel { runEnvAllOk with
        commitPushError := some "push failed", cleanupFails := true
      }).cleanupFailureLoggedDebug = true ∧
    (runModel { runEnvAllOk with
        commitPushError := some "push failed", cleanupFails := true
      }).failureReported = some "push failed" := by
  have h := run_cleanup_on_failure
    { runEnvAllOk with
        commitPushError := some "push failed", cleanupFails := true }
    "push failed" rfl
  exact ⟨h.1, h.2.1, h.2.2.1, h.2.2.2⟩

/-! ## `generateArgoCDAppManifest`
(src/utils/argocd-app-manifest.ts lines 88-153)

The function writes the composed values to a uniquely named temporary
file, runs `helm fetch` and `helm template` via `execWithOutput`
(throwing on a non-zero exit code of either), and only after a
successful render calls `fs.promises.unlink` on the temporary values
file before writing the rendered output.  There is no `try`/`finally`
around the helm invocations. -/

/-- Exit codes and streams of the two helm invocations. -/
structure GenEnv where
  helmFetchExit : Nat
  helmFetchStderr : String
  helmTemplateExit : Nat
  helmTemplateStdout : String
  helmTemplateStderr : String

/-- Observable trace of one `generateArgoCDAppManifest` invocation:
whether the temporary values file was written and removed, and the
outcome (the rendered manifest text written to the output file, or the
thrown error message). -/
structure GenTrace where
  tmpWritten : Bool
  tmpRemoved : Bool
  result : Except String String

/-- Model of `generateArgoCDAppManifest` over the helm outcomes. -/
def generateArgoCDAppManifestModel (env : GenEnv) : GenTrace :=
  if env.helmFetchExit ≠ 0 then
    { tmpWritten := true
      tmpRemoved := false
      result := .error ("helm fetch failed with exit code " ++
        toString env.helmFetchExit ++ ": " ++ env.helmFetchStderr) }
  else if env.helmTemplateExit ≠ 0 then
    { tmpWritten := true
      tmpRemoved := false
      result := .error ("helm template failed with exit code " ++
        toString env.helmTemplateExit ++ ": " ++ env.helmTemplateStderr) }
  else
    { tmpWritten := true
      tmpRemoved := true
      result := .ok env.helmTemplateStdout }

/-- Counterexample to C6: a concrete invocation whose `helm template`
exits with code 1 throws, and the temporary values file it wrote is
not removed — cleanup exists only on the success path. -/
theorem generateArgoCDAppManifest_cleanup_counterexample :
    (generateArgoCDAppManifestModel
      { helmFetchExit := 0
        helmFetchStderr := ""
        helmTemplateExit := 1
        helmTemplateStdout := ""
        helmTemplateStderr := "template: invalid values" }).tmpWritten
      = true ∧
    (generateArgoCDAppManifestModel
      { helmFetchExit := 0
        helmFetchStderr := ""
        helmTemplateExit := 1
        helmTemplateStdout := ""
        helmTemplateStderr := "template: invalid values" }).tmpRemoved
      = false ∧
    (generateArgoCDAppManifestModel
      { helmFetchExit := 0
        helmFetchStderr := ""
        helmTemplateExit := 1
        helmTemplateStdout := ""
        helmTemplateStderr := "template: invalid values" }).result
      = .error "helm template failed with exit code 1: template: invalid values" := by
  refine ⟨rfl, rfl, ?_⟩
  simp [generateArgoCDAppManifestModel]
  decide

/-- C6 (amended): `generateArgoCDAppManifest` removes the temporary
values file exactly on the success exit path; when `helm fetch` or
`helm template` exits non-zero the function throws and the temporary
values file is left behind. -/
theorem generateArgoCDAppManifest_cleanup_on_success (env : GenEnv) :
    (generateArgoCDAppManifestModel env).tmpWritten = true ∧
    ((generateArgoCDAppManifestModel env).tmpRemoved = true ↔
      (env.helmFetchExit = 0 ∧ env.helmTemplateExit = 0)) ∧
    ((generateArgoCDAppManifestModel env).tmpRemoved = true ↔
      (generateArgoCDAppManifestModel env).result =
        .ok env.helmTemplateStdout) := by
  by_cases hf : env.helmFetchExit = 0 <;>
    by_cases ht : env.helmTemplateExit = 0 <;>
      simp [generateArgoCDAppManifestModel, hf, ht]

/-! ## YAML documents and lodash merge
(src/utils/argocd-app-manifest.ts lines 33-73)

`generateValuesYaml` builds a default values object, parses the
user-supplied `customValues` with `yaml.load`, merges with
`_.merge(defaultValues, customValuesYaml)` and serializes the result
with `yaml.dump`.  We model the parsed documents as a tree type and
`_.merge` by its semantics on such trees:

* a key whose source value is a plain mapping is merged recursively
  into a destination mapping, or deep-copied over a non-mapping
  destination;
* a key whose source value is a sequence is merged index-wise into a
  destination sequence (destination elements beyond the source length
  survive), and deep-copied over a non-sequence destination;
* any other source value is assigned;
* a falsy top-level source (null, false, 0, empty string) is skipped
  entirely; a truthy non-string scalar has no enumerable keys and
  contributes nothing; a non-empty string or sequence source is spread
  into the destination under its decimal index keys. -/

/-- A parsed YAML document. -/
inductive Yaml where
  | nullV
  | boolV (b : Bool)
  | numV (n : Int)
  | strV (s : String)
  | seqV (xs : List Yaml)
  | mapV (kvs : List (String × Yaml))

/-- Look a key up in a mapping's entry list (first match). -/
def lookupKey : List (String × Yaml) → String → Option Yaml
  | [], _ => none
  | (k, v) :: rest, key => if k = key then some v else lookupKey rest key

/-- Set a key in a mapping's entry list: replace the first occurrence
in place, or append when absent — JS object update order. -/
def setKey : List (String × Yaml) → String → Yaml → List (String × Yaml)
  | [], key, val => [(key, val)]
  | (k, v) :: rest, key, val =>
      if k = key then (k, val) :: rest
      else (k, v) :: setKey rest key val

mutual

/-- lodash `baseMergeDeep` for one source value: `ov` is the
destination's value at the key (`none` when absent). -/
def mergeVal : Option Yaml → Yaml → Yaml
  | ov, .mapV skvs =>
      match ov with
      | some (.mapV okvs) => .mapV (mergeKvs okvs skvs)
      | _ => .mapV (mergeKvs [] skvs)
  | ov, .seqV sxs =>
      match ov with
      | some (.seqV oxs) => .seqV (mergeSeq oxs sxs)
      | _ => .seqV (mergeSeq [] sxs)
  | _, .nullV => .nullV
  | _, .boolV b => .boolV b
  | _, .numV n => .numV n
  | _, .strV s => .strV s

/-- lodash `baseMerge` over a mapping source: fold the source entries
left to right into the destination entry list. -/
def mergeKvs : List (String × Yaml) → List (String × Yaml) →
    List (String × Yaml)
  | okvs, [] => okvs
  | okvs, (k, v) :: rest =>
      mergeKvs (setKey okvs k (mergeVal (lookupKey okvs k) v)) rest

/-- lodash merge of a sequence source into a sequence destination:
index-wise, destination elements beyond the source length survive. -/
def mergeSeq : List Yaml → List Yaml → List Yaml
  | oxs, [] => oxs
  | oxs, s :: rest => mergeVal oxs.head? s :: mergeSeq oxs.tail rest

end

/-- Is a key present in a mapping's entry list? -/
def hasKey (kvs : List (String × Yaml)) (k : String) : Bool :=
  (lookupKey kvs k).isSome

mutual

/-- Well-formedness of a parsed YAML document: every mapping has
pairwise distinct keys.  `yaml.load` always produces such documents
(JS object keys are unique). -/
def wfY : Yaml → Bool
  | .mapV kvs => wfKvs kvs
  | .seqV xs => wfSeq xs
  | _ => true

/-- Well-formedness of a mapping's entries. -/
def wfKvs : List (String × Yaml) → Bool
  | [] => true
  | (k, v) :: rest => !hasKey rest k && wfY v && wfKvs rest

/-- Well-formedness of a sequence's elements. -/
def wfSeq : List Yaml → Bool
  | [] => true
  | x :: rest => wfY x && wfSeq rest

end

mutual

/-- Does the document contain no sequence node anywhere? -/
def noSeqY : Yaml → Bool
  | .mapV kvs => noSeqKvs kvs
  | .seqV _ => false
  | _ => true

/-- `noSeqY` over a mapping's entries. -/
def noSeqKvs : List (String × Yaml) → Bool
  | [] => true
  | (_, v) :: rest => noSeqY v && noSeqKvs rest

end

/-- The entries of the `defaultValues` object of `generateValuesYaml`
(src/utils/argocd-app-manifest.ts lines 44-56). -/
def defaultValuesKvs (applicationName environment sourceRepo sourceOrg
    sourceBranch gitopsPath applicationManifestsPath : String) :
    List (String × Yaml) :=
  [("applicationName", .strV (applicationName ++ "-" ++ environment)),
   ("application", .mapV
     [("destination", .mapV [("namespace", .strV applicationName)]),
      ("source", .mapV
        [("repoURL", .strV ("https://github.com/" ++ sourceOrg ++ "/" ++
           sourceRepo ++ ".git")),
         ("targetRevision", .strV sourceBranch),
         ("path", .strV (pathJoin [gitopsPath, applicationName,
           environment, applicationManifestsPath, "/"]))])])]

/-- The `defaultValues` object as a document. -/
def defaultValuesDoc (applicationName environment sourceRepo sourceOrg
    sourceBranch gitopsPath applicationManifestsPath : String) : Yaml :=
  .mapV (defaultValuesKvs applicationName environment sourceRepo sourceOrg
    sourceBranch gitopsPath applicationManifestsPath)

/-- Decimal index key used when lodash spreads an array-like source
into an object. -/
def idxKey (i : Nat) : String := toString i

/-- lodash `baseMerge` with a string source: `keysIn` of a non-empty
string primitive are its index keys, and each one-character string is
assigned (a character is not an object). -/
def spreadStr (d : List (String × Yaml)) (i : Nat) :
    List Char → List (String × Yaml)
  | [] => d
  | c :: cs => spreadStr (setKey d (idxKey i) (.strV (String.mk [c]))) (i + 1) cs

/-- lodash `baseMerge` with an array source: elements merged in under
their index keys. -/
def spreadSeqSrc (d : List (String × Yaml)) (i : Nat) :
    List Yaml → List (String × Yaml)
  | [] => d
  | x :: xs =>
      spreadSeqSrc (setKey d (idxKey i) (mergeVal (lookupKey d (idxKey i)) x))
        (i + 1) xs

/-- Top-level `_.merge(defaultValues, customValuesYaml)`: a falsy
source (null, false, 0, empty string) is skipped by `createAssigner`;
a truthy boolean or number has no enumerable keys and contributes
nothing; a non-empty string or an array source is spread under its
index keys; a mapping source is merged key-by-key.  The destination in
the source code is always the default values mapping. -/
def lodashMergeTop (d : Yaml) (src : Yaml) : Yaml :=
  match src with
  | .nullV => d
  | .boolV _ => d
  | .numV _ => d
  | .strV s =>
      if s = "" then d
      else
        match d with
        | .mapV kvs => .mapV (spreadStr kvs 0 s.data)
        | _ => d
  | .seqV xs =>
      match d with
      | .mapV kvs => .mapV (spreadSeqSrc kvs 0 xs)
      | _ => d
  | .mapV skvs =>
      match d with
      | .mapV okvs => .mapV (mergeKvs okvs skvs)
      | _ => d

/-- Model of `generateValuesYaml` at the document level: the function
serializes this document with `yaml.dump`.  `customValuesParsed` is
the `yaml.load` of the `customValues` input; `none` models the empty
input (`if (!customValues) return yaml.dump(defaultValues)`). -/
def generateValuesYamlModel (applicationName environment sourceRepo
    sourceOrg sourceBranch gitopsPath applicationManifestsPath : String)
    (customValuesParsed : Option Yaml) : Yaml :=
  let d := defaultValuesDoc applicationName environment sourceRepo sourceOrg
    sourceBranch gitopsPath applicationManifestsPath
  match customValuesParsed with
  | none => d
  | some v => lodashMergeTop d v

/-- Look a document up along a path of mapping keys. -/
def lookupPath : Yaml → List String → Option Yaml
  | v, [] => some v
  | .mapV kvs, k :: ks =>
      match lookupKey kvs k with
      | some v => lookupPath v ks
      | none => none
  | _, _ :: _ => none

theorem lookupKey_append (a b : List (String × Yaml)) (k : String) :
    lookupKey (a ++ b) k =
      match lookupKey a k with
      | some v => some v
      | none => lookupKey b k := by
  induction a with
  | nil => simp [lookupKey]
  | cons p rest ih =>
      obtain ⟨k', v'⟩ := p
      by_cases h : k' = k <;> simp [lookupKey, h, ih]

theorem lookupKey_eq_none_of_hasKey_false {kvs : List (String × Yaml)}
    {k : String} (h : hasKey kvs k = false) : lookupKey kvs k = none := by
  unfold hasKey at h
  exact Option.not_isSome_iff_eq_none.mp (by simp [h])

theorem setKey_of_hasKey_false {kvs : List (String × Yaml)} {k : String}
    (h : hasKey kvs k = false) (v : Yaml) : setKey kvs k v = kvs ++ [(k, v)] := by
  induction kvs with
  | nil => simp [setKey]
  | cons p rest ih =>
      obtain ⟨k', v'⟩ := p
      by_cases hk : k' = k
      · subst hk
        simp [hasKey, lookupKey] at h
      · simp [setKey, hk]
        exact ih (by simpa [hasKey, lookupKey, hk] using h)

theorem hasKey_append_single (kvs : List (String × Yaml)) (k q : String)
    (v : Yaml) :
    hasKey (kvs ++ [(k, v)]) q = (hasKey kvs q || decide (k = q)) := by
  by_cases h : hasKey kvs q = true
  · have := Option.isSome_iff_exists.mp (by simpa [hasKey] using h)
    obtain ⟨w, hw⟩ := this
    simp [hasKey, lookupKey_append, hw, h]
  · have hn : lookupKey kvs q = none :=
      lookupKey_eq_none_of_hasKey_false (by simpa using h)
    by_cases hkq : k = q <;>
      simp [hasKey, lookupKey_append, hn, lookupKey, hkq]

theorem lookupKey_setKey_self (kvs : List (String × Yaml)) (k : String)
    (v : Yaml) : lookupKey (setKey kvs k v) k = some v := by
  induction kvs with
  | nil => simp [setKey, lookupKey]
  | cons p rest ih =>
      obtain ⟨k', v'⟩ := p
      by_cases h : k' = k <;> simp [setKey, lookupKey, h, ih]

theorem lookupKey_setKey_ne (kvs : List (String × Yaml)) {k q : String}
    (h : k ≠ q) (v : Yaml) : lookupKey (setKey kvs k v) q = lookupKey kvs q := by
  induction kvs with
  | nil => simp [setKey, lookupKey, h]
  | cons p rest ih =>
      obtain ⟨k', v'⟩ := p
      by_cases h' : k' = k
      · subst h'
        simp [setKey, lookupKey, h]
      · by_cases h'' : k' = q <;>
          simp [setKey, lookupKey, h', h'', ih, Ne.symm h]

/-- From a well-formed mapping, a successful lookup returns a
well-formed value. -/
theorem wfY_of_lookupKey : ∀ (kvs : List (String × Yaml)) {k : String}
    {v : Yaml}, wfKvs kvs = true → lookupKey kvs k = some v → wfY v = true
  | [], _, _, _, h => by simp [lookupKey] at h
  | (k', v') :: rest, k, v, hw, h => by
      rw [wfKvs, Bool.and_eq_true, Bool.and_eq_true] at hw
      by_cases hk : k' = k
      · simp [lookupKey, hk] at h
        exact h ▸ hw.1.2
      · exact wfY_of_lookupKey rest hw.2 (by simpa [lookupKey, hk] using h)

/-- From a sequence-free mapping, a successful lookup returns a
sequence-free value. -/
theorem noSeqY_of_lookupKey : ∀ (kvs : List (String × Yaml)) {k : String}
    {v : Yaml}, noSeqKvs kvs = true → lookupKey kvs k = some v →
    noSeqY v = true
  | [], _, _, _, h => by simp [lookupKey] at h
  | (k', v') :: rest, k, v, hw, h => by
      rw [noSeqKvs, Bool.and_eq_true] at hw
      by_cases hk : k' = k
      · simp [lookupKey, hk] at h
        exact h ▸ hw.1
      · exact noSeqY_of_lookupKey rest hw.2 (by simpa [lookupKey, hk] using h)

/-- A looked-up value is structurally smaller than the entry list. -/
theorem sizeOf_lookupKey : ∀ (kvs : List (String × Yaml)) {k : String}
    {v : Yaml}, lookupKey kvs k = some v → sizeOf v < sizeOf kvs
  | [], _, _, h => by simp [lookupKey] at h
  | (k', v') :: rest, k, v, h => by
      by_cases hk : k' = k
      · simp [lookupKey, hk] at h
        subst h
        simp
        omega
      · have := sizeOf_lookupKey rest (by simpa [lookupKey, hk] using h)
        simp
        omega

/-- A member's key is found by `lookupKey`. -/
theorem hasKey_of_mem : ∀ {kvs : List (String × Yaml)} {p : String × Yaml},
    p ∈ kvs → hasKey kvs p.1 = true
  | (k', v') :: rest, p, hp => by
      rcases List.mem_cons.mp hp with h | h
      · subst h
        simp [hasKey, lookupKey]
      · have ih := hasKey_of_mem h
        by_cases hk : k' = p.1 <;> simp_all [hasKey, lookupKey]

mutual

/-- Merging a well-formed source into an absent destination value is
the identity (lodash deep-copies the source). -/
theorem mergeVal_none_id : ∀ (v : Yaml), wfY v = true → mergeVal none v = v
  | .nullV, _ => rfl
  | .boolV _, _ => rfl
  | .numV _, _ => rfl
  | .strV _, _ => rfl
  | .seqV xs, h => by
      have e : mergeVal none (.seqV xs) = .seqV (mergeSeq [] xs) := rfl
      rw [e, mergeSeq_nil_clone xs (by simpa [wfY] using h)]
  | .mapV kvs, h => by
      have e : mergeVal none (.mapV kvs) = .mapV (mergeKvs [] kvs) := rfl
      rw [e, mergeKvs_disjoint_clone kvs [] (by simpa [wfY] using h)
        (by intro p _; rfl)]
      rfl

/-- Merging well-formed source entries whose keys are all absent from
the accumulator appends them unchanged. -/
theorem mergeKvs_disjoint_clone : ∀ (kvs acc : List (String × Yaml)),
    wfKvs kvs = true → (∀ p ∈ kvs, hasKey acc p.1 = false) →
    mergeKvs acc kvs = acc ++ kvs
  | [], acc, _, _ => by simp [mergeKvs]
  | (k, v) :: rest, acc, hw, hd => by
      rw [wfKvs, Bool.and_eq_true, Bool.and_eq_true] at hw
      have hacc : hasKey acc k = false := hd (k, v) (by simp)
      have hnone : lookupKey acc k = none := lookupKey_eq_none_of_hasKey_false hacc
      rw [mergeKvs, hnone, mergeVal_none_id v hw.1.2, setKey_of_hasKey_false hacc v]
      rw [mergeKvs_disjoint_clone rest (acc ++ [(k, v)]) hw.2 ?_]
      · simp
      · intro p hp
        rw [hasKey_append_single]
        have hp1 : hasKey acc p.1 = false := hd p (by simp [hp])
        have hkp : k ≠ p.1 := by
          intro hkp
          have hmem : hasKey rest p.1 = true := hasKey_of_mem hp
          rw [← hkp] at hmem
          simp [hmem] at hw
        simp [hp1, hkp]

/-- Merging well-formed sequence elements into an empty destination is
the identity. -/
theorem mergeSeq_nil_clone : ∀ (xs : List Yaml), wfSeq xs = true →
    mergeSeq [] xs = xs
  | [], _ => rfl
  | x :: rest, h => by
      rw [wfSeq, Bool.and_eq_true] at h
      have e : mergeSeq ([] : List Yaml) (x :: rest) =
          mergeVal none x :: mergeSeq [] rest := rfl
      rw [e, mergeVal_none_id x h.1, mergeSeq_nil_clone rest h.2]

end

/-- Characterization of the merged mapping: a key present in the
source comes out as the merge of the destination's and the source's
values at that key; a key absent from the source keeps the
destination's value. -/
theorem lookupKey_mergeKvs : ∀ (skvs dkvs : List (String × Yaml))
    (key : String), wfKvs skvs = true →
    lookupKey (mergeKvs dkvs skvs) key =
      match lookupKey skvs key with
      | some v => some (mergeVal (lookupKey dkvs key) v)
      | none => lookupKey dkvs key
  | [], dkvs, key, _ => by simp [mergeKvs, lookupKey]
  | (k, v) :: rest, dkvs, key, hw => by
      rw [wfKvs, Bool.and_eq_true, Bool.and_eq_true] at hw
      have e : mergeKvs dkvs ((k, v) :: rest) =
          mergeKvs (setKey dkvs k (mergeVal (lookupKey dkvs k) v)) rest := rfl
      rw [e, lookupKey_mergeKvs rest _ key hw.2]
      by_cases hk : k = key
      · subst hk
        have hrest : lookupKey rest k = none :=
          lookupKey_eq_none_of_hasKey_false (by simpa using hw.1.1)
        simp [lookupKey, hrest, lookupKey_setKey_self]
      · simp [lookupKey, hk, lookupKey_setKey_ne dkvs hk]

mutual

/-- The merge-override specification at one value: the claim's
"every key present in O with O's value, recursively for nested
mappings".  `MSVal dv v mv` says the merged value `mv` at a key where
the override has value `v` and the default has value `dv` respects the
override: nested mappings over mappings are merged recursively, and
every other override value comes out verbatim. -/
inductive MSVal : Option Yaml → Yaml → Option Yaml → Prop where
  | mapMap (dkvs skvs mkvs : List (String × Yaml)) :
      MSKvs dkvs skvs mkvs →
      MSVal (some (.mapV dkvs)) (.mapV skvs) (some (.mapV mkvs))
  | mapOther (dv : Option Yaml) (skvs : List (String × Yaml)) :
      (∀ kvs, dv ≠ some (.mapV kvs)) →
      MSVal dv (.mapV skvs) (some (.mapV skvs))
  | other (dv : Option Yaml) (v : Yaml) :
      (∀ kvs, v ≠ .mapV kvs) →
      MSVal dv v (some v)

/-- The merge-override specification at one mapping level: every key
of the default mapping not present in the override keeps the default's
value (in particular no default key is deleted), and every key present
in the override obeys `MSVal` (in particular override keys absent from
the default are added). -/
inductive MSKvs : List (String × Yaml) → List (String × Yaml) →
    List (String × Yaml) → Prop where
  | intro (dkvs skvs mkvs : List (String × Yaml)) :
      (∀ k, lookupKey skvs k = none → lookupKey mkvs k = lookupKey dkvs k) →
      (∀ k v, lookupKey skvs k = some v →
        MSVal (lookupKey dkvs k) v (lookupKey mkvs k)) →
      MSKvs dkvs skvs mkvs

end

/-- `noSeqY` over an optional destination value. -/
def noSeqOpt : Option Yaml → Bool
  | none => true
  | some v => noSeqY v

/-- Merging a well-formed mapping into an empty destination list is
the identity. -/
theorem mergeKvs_nil_id {skvs : List (String × Yaml)}
    (hw : wfKvs skvs = true) : mergeKvs [] skvs = skvs := by
  simpa using mergeKvs_disjoint_clone skvs [] hw (by intro p _; rfl)

/-- A mapping source deep-copies over a non-mapping destination. -/
theorem mergeVal_nonmap_map (dv : Option Yaml)
    (skvs : List (String × Yaml)) (hd : ∀ kvs, dv ≠ some (.mapV kvs))
    (hw : wfKvs skvs = true) : mergeVal dv (.mapV skvs) = .mapV skvs := by
  match dv with
  | none =>
      exact mergeVal_none_id _ (by simpa [wfY] using hw)
  | some .nullV =>
      have e : mergeVal (some .nullV) (.mapV skvs) =
          .mapV (mergeKvs [] skvs) := rfl
      rw [e, mergeKvs_nil_id hw]
  | some (.boolV b) =>
      have e : mergeVal (some (.boolV b)) (.mapV skvs) =
          .mapV (mergeKvs [] skvs) := rfl
      rw [e, mergeKvs_nil_id hw]
  | some (.numV n) =>
      have e : mergeVal (some (.numV n)) (.mapV skvs) =
          .mapV (mergeKvs [] skvs) := rfl
      rw [e, mergeKvs_nil_id hw]
  | some (.strV t) =>
      have e : mergeVal (some (.strV t)) (.mapV skvs) =
          .mapV (mergeKvs [] skvs) := rfl
      rw [e, mergeKvs_nil_id hw]
  | some (.seqV ys) =>
      have e : mergeVal (some (.seqV ys)) (.mapV skvs) =
          .mapV (mergeKvs [] skvs) := rfl
      rw [e, mergeKvs_nil_id hw]
  | some (.mapV kvs) =>
      exact absurd rfl (hd kvs)

/-- A sequence source deep-copies over a non-sequence destination. -/
theorem mergeVal_nonseq_seq (dv : Option Yaml) (xs : List Yaml)
    (hd : ∀ ys, dv ≠ some (.seqV ys)) (hw : wfSeq xs = true) :
    mergeVal dv (.seqV xs) = .seqV xs := by
  match dv with
  | none =>
      exact mergeVal_none_id _ (by simpa [wfY] using hw)
  | some .nullV =>
      have e : mergeVal (some .nullV) (.seqV xs) =
          .seqV (mergeSeq [] xs) := rfl
      rw [e, mergeSeq_nil_clone xs hw]
  | some (.boolV b) =>
      have e : mergeVal (some (.boolV b)) (.seqV xs) =
          .seqV (mergeSeq [] xs) := rfl
      rw [e, mergeSeq_nil_clone xs hw]
  | some (.numV n) =>
      have e : mergeVal (some (.numV n)) (.seqV xs) =
          .seqV (mergeSeq [] xs) := rfl
      rw [e, mergeSeq_nil_clone xs hw]
  | some (.strV t) =>
      have e : mergeVal (some (.strV t)) (.seqV xs) =
          .seqV (mergeSeq [] xs) := rfl
      rw [e, mergeSeq_nil_clone xs hw]
  | some (.mapV kvs) =>
      have e : mergeVal (some (.mapV kvs)) (.seqV xs) =
          .seqV (mergeSeq [] xs) := rfl
      rw [e, mergeSeq_nil_clone xs hw]
  | some (.seqV ys) =>
      exact absurd rfl (hd ys)

/-- A scalar source is assigned verbatim. -/
theorem mergeVal_scalar (dv : Option Yaml) (v : Yaml)
    (hm : ∀ kvs, v ≠ .mapV kvs) (hs : ∀ xs, v ≠ .seqV xs) :
    mergeVal dv v = v := by
  match v with
  | .nullV => cases dv <;> rfl
  | .boolV b => cases dv <;> rfl
  | .numV n => cases dv <;> rfl
  | .strV t => cases dv <;> rfl
  | .mapV kvs => exact absurd rfl (hm kvs)
  | .seqV xs => exact absurd rfl (hs xs)

mutual

/-- The lodash merge of a well-formed override value over a
sequence-free default value satisfies the merge-override
specification. -/
theorem msVal_of_merge : ∀ (dv : Option Yaml) (v : Yaml),
    wfY v = true → noSeqOpt dv = true → MSVal dv v (some (mergeVal dv v))
  | dv, .mapV skvs, hw, hns => by
      match dv with
      | some (.mapV dkvs) =>
          exact MSVal.mapMap dkvs skvs (mergeKvs dkvs skvs)
            (msKvs_of_merge dkvs skvs (by simpa [wfY] using hw)
              (by simpa [noSeqOpt, noSeqY] using hns))
      | none =>
          rw [mergeVal_nonmap_map none skvs (by simp) (by simpa [wfY] using hw)]
          exact MSVal.mapOther none skvs (by simp)
      | some .nullV =>
          rw [mergeVal_nonmap_map (some .nullV) skvs (by simp)
            (by simpa [wfY] using hw)]
          exact MSVal.mapOther (some .nullV) skvs (by simp)
      | some (.boolV b) =>
          rw [mergeVal_nonmap_map (some (.boolV b)) skvs (by simp)
            (by simpa [wfY] using hw)]
          exact MSVal.mapOther (some (.boolV b)) skvs (by simp)
      | some (.numV n) =>
          rw [mergeVal_nonmap_map (some (.numV n)) skvs (by simp)
            (by simpa [wfY] using hw)]
          exact MSVal.mapOther (some (.numV n)) skvs (by simp)
      | some (.strV t) =>
          rw [mergeVal_nonmap_map (some (.strV t)) skvs (by simp)
            (by simpa [wfY] using hw)]
          exact MSVal.mapOther (some (.strV t)) skvs (by simp)
      | some (.seqV ys) =>
          simp [noSeqOpt, noSeqY] at hns
  | dv, .seqV xs, hw, hns => by
      have hd : ∀ ys, dv ≠ some (.seqV ys) := by
        intro ys hdv
        rw [hdv] at hns
        simp [noSeqOpt, noSeqY] at hns
      rw [mergeVal_nonseq_seq dv xs hd (by simpa [wfY] using hw)]
      exact MSVal.other dv (.seqV xs) (by simp)
  | dv, .nullV, _, _ => by
      rw [mergeVal_scalar dv .nullV (by simp) (by simp)]
      exact MSVal.other dv .nullV (by simp)
  | dv, .boolV b, _, _ => by
      rw [mergeVal_scalar dv (.boolV b) (by simp) (by simp)]
      exact MSVal.other dv (.boolV b) (by simp)
  | dv, .numV n, _, _ => by
      rw [mergeVal_scalar dv (.numV n) (by simp) (by simp)]
      exact MSVal.other dv (.numV n) (by simp)
  | dv, .strV t, _, _ => by
      rw [mergeVal_scalar dv (.strV t) (by simp) (by simp)]
      exact MSVal.other dv (.strV t) (by simp)
termination_by dv v hw hns => sizeOf v
decreasing_by
  simp

/-- The lodash merge of a well-formed override mapping over a
sequence-free default mapping satisfies the merge-override
specification at every key. -/
theorem msKvs_of_merge : ∀ (dkvs skvs : List (String × Yaml)),
    wfKvs skvs = true → noSeqKvs dkvs = true →
    MSKvs dkvs skvs (mergeKvs dkvs skvs)
  | dkvs, skvs, hw, hns => by
      refine MSKvs.intro dkvs skvs (mergeKvs dkvs skvs) ?_ ?_
      · intro k hk
        rw [lookupKey_mergeKvs skvs dkvs k hw, hk]
      · intro k v hk
        rw [lookupKey_mergeKvs skvs dkvs k hw, hk]
        have hwv : wfY v = true := wfY_of_lookupKey skvs hw hk
        have hnd : noSeqOpt (lookupKey dkvs k) = true := by
          cases hd : lookupKey dkvs k with
          | none => rfl
          | some d => simpa [noSeqOpt] using noSeqY_of_lookupKey dkvs hns hd
        exact msVal_of_merge (lookupKey dkvs k) v hwv hnd
termination_by dkvs skvs hw hns => sizeOf skvs
decreasing_by
  exact sizeOf_lookupKey skvs hk

end

/-- The default values document never contains a sequence node. -/
theorem noSeqKvs_defaultValuesKvs (applicationName environment sourceRepo
    sourceOrg sourceBranch gitopsPath applicationManifestsPath : String) :
    noSeqKvs (defaultValuesKvs applicationName environment sourceRepo
      sourceOrg sourceBranch gitopsPath applicationManifestsPath) = true := rfl

/-- C2: for the default document `D` built by `generateValuesYaml` from
any inputs and every well-formed override mapping `O`, the merged
document contains every key of `D` not present in `O` with `D`'s value
unchanged (no default key is ever deleted), and every key present in
`O` with `O`'s value — recursively for nested mappings, with keys of
`O` absent from `D` added (`MSKvs` states exactly this per-key
contract). -/
theorem generateValuesYaml_merge_override
    (applicationName environment sourceRepo sourceOrg sourceBranch
      gitopsPath applicationManifestsPath : String)
    (okvs : List (String × Yaml)) (hw : wfKvs okvs = true) :
    generateValuesYamlModel applicationName environment sourceRepo sourceOrg
        sourceBranch gitopsPath applicationManifestsPath (some (.mapV okvs)) =
      .mapV (mergeKvs (defaultValuesKvs applicationName environment sourceRepo
        sourceOrg sourceBranch gitopsPath applicationManifestsPath) okvs) ∧
    MSKvs (defaultValuesKvs applicationName environment sourceRepo sourceOrg
        sourceBranch gitopsPath applicationManifestsPath) okvs
      (mergeKvs (defaultValuesKvs applicationName environment sourceRepo
        sourceOrg sourceBranch gitopsPath applicationManifestsPath) okvs) := by
  refine ⟨rfl, ?_⟩
  exact msKvs_of_merge _ okvs hw
    (noSeqKvs_defaultValuesKvs applicationName environment sourceRepo
      sourceOrg sourceBranch gitopsPath applicationManifestsPath)

/-- A concrete override mapping (namespace and target revision
overridden, as in the repository's unit test). -/
def sampleOverrideKvs : List (String × Yaml) :=
  [("application", .mapV
    [("destination", .mapV [("namespace", .strV "custom-ns")]),
     ("source", .mapV [("targetRevision", .strV "feature-x")])])]

/-- Witness for C2 at a concrete default document and override. -/
theorem generateValuesYaml_merge_override_witness :
    MSKvs (defaultValuesKvs "app" "staging" "repo2" "org2" "main" "" "")
      sampleOverrideKvs
      (mergeKvs (defaultValuesKvs "app" "staging" "repo2" "org2" "main" "" "")
        sampleOverrideKvs) :=
  (generateValuesYaml_merge_override "app" "staging" "repo2" "org2" "main"
    "" "" sampleOverrideKvs (by decide)).2

/-- Sequences survive the merge wholesale: at every path where the
well-formed override has a sequence, merging it over a sequence-free
default yields exactly that sequence. -/
theorem lookupPath_merge_seq : ∀ (p : List String)
    (dkvs skvs : List (String × Yaml)) (xs : List Yaml),
    wfKvs skvs = true → noSeqKvs dkvs = true →
    lookupPath (.mapV skvs) p = some (.seqV xs) →
    lookupPath (.mapV (mergeKvs dkvs skvs)) p = some (.seqV xs)
  | [], _, _, _, _, _, h => by simp [lookupPath] at h
  | k :: ks, dkvs, skvs, xs, hw, hns, h => by
      cases hk : lookupKey skvs k with
      | none => simp [lookupPath, hk] at h
      | some v =>
          have hp : lookupPath v ks = some (.seqV xs) := by
            simpa [lookupPath, hk] using h
          have hl : lookupKey (mergeKvs dkvs skvs) k =
              some (mergeVal (lookupKey dkvs k) v) := by
            rw [lookupKey_mergeKvs skvs dkvs k hw, hk]
          have egoal : lookupPath (.mapV (mergeKvs dkvs skvs)) (k :: ks) =
              (match lookupKey (mergeKvs dkvs skvs) k with
               | some w => lookupPath w ks
               | none => none) := rfl
          rw [egoal, hl]
          have hwv : wfY v = true := wfY_of_lookupKey skvs hw hk
          have hndv : ∀ w, lookupKey dkvs k = some w → noSeqY w = true :=
            fun w hd => noSeqY_of_lookupKey dkvs hns hd
          cases v with
          | seqV ys =>
              cases ks with
              | nil =>
                  have hys : ys = xs := by simpa [lookupPath] using hp
                  subst hys
                  have hd : ∀ zs, lookupKey dkvs k ≠ some (.seqV zs) := by
                    intro zs hdz
                    have := hndv _ hdz
                    simp [noSeqY] at this
                  rw [mergeVal_nonseq_seq _ ys hd (by simpa [wfY] using hwv)]
                  rfl
              | cons k' ks' => simp [lookupPath] at hp
          | mapV okvs2 =>
              cases hd : lookupKey dkvs k with
              | none =>
                  rw [mergeVal_nonmap_map none okvs2 (by simp)
                    (by simpa [wfY] using hwv)]
                  exact hp
              | some w =>
                  cases w with
                  | mapV dkvs2 =>
                      have e : mergeVal (some (.mapV dkvs2)) (.mapV okvs2) =
                          .mapV (mergeKvs dkvs2 okvs2) := rfl
                      rw [e]
                      exact lookupPath_merge_seq ks dkvs2 okvs2 xs
                        (by simpa [wfY] using hwv)
                        (by simpa [noSeqY] using hndv _ hd) hp
                  | seqV zs =>
                      have := hndv _ hd
                      simp [noSeqY] at this
                  | nullV =>
                      rw [mergeVal_nonmap_map (some .nullV) okvs2 (by simp)
                        (by simpa [wfY] using hwv)]
                      exact hp
                  | boolV b =>
                      rw [mergeVal_nonmap_map (some (.boolV b)) okvs2 (by simp)
                        (by simpa [wfY] using hwv)]
                      exact hp
                  | numV n =>
                      rw [mergeVal_nonmap_map (some (.numV n)) okvs2 (by simp)
                        (by simpa [wfY] using hwv)]
                      exact hp
                  | strV t =>
                      rw [mergeVal_nonmap_map (some (.strV t)) okvs2 (by simp)
                        (by simpa [wfY] using hwv)]
                      exact hp
          | nullV => cases ks <;> simp [lookupPath] at hp
          | boolV b => cases ks <;> simp [lookupPath] at hp
          | numV n => cases ks <;> simp [lookupPath] at hp
          | strV t => cases ks <;> simp [lookupPath] at hp

/-- C3: when the well-formed override mapping has a sequence at some
path, the document merged by `generateValuesYaml` contains the
override's sequence wholesale at that path — equal to it, never a
concatenation or element-wise combination with a default value. -/
theorem generateValuesYaml_seq_wholesale
    (applicationName environment sourceRepo sourceOrg sourceBranch
      gitopsPath applicationManifestsPath : String)
    (okvs : List (String × Yaml)) (p : List String) (xs : List Yaml)
    (hw : wfKvs okvs = true)
    (hp : lookupPath (.mapV okvs) p = some (.seqV xs)) :
    lookupPath (generateValuesYamlModel applicationName environment
      sourceRepo sourceOrg sourceBranch gitopsPath applicationManifestsPath
      (some (.mapV okvs))) p = some (.seqV xs) := by
  have e : generateValuesYamlModel applicationName environment sourceRepo
      sourceOrg sourceBranch gitopsPath applicationManifestsPath
      (some (.mapV okvs)) =
      .mapV (mergeKvs (defaultValuesKvs applicationName environment
        sourceRepo sourceOrg sourceBranch gitopsPath
        applicationManifestsPath) okvs) := rfl
  rw [e]
  exact lookupPath_merge_seq p _ okvs xs hw
    (noSeqKvs_defaultValuesKvs applicationName environment sourceRepo
      sourceOrg sourceBranch gitopsPath applicationManifestsPath) hp

/-- A concrete override carrying a sequence nested below a default
mapping key. -/
def sampleSeqOverrideKvs : List (String × Yaml) :=
  [("application", .mapV [("ports", .seqV [.numV 1, .numV 2])])]

/-- Witness for C3: the override's sequence comes out verbatim at its
path in a concrete merged document. -/
theorem generateValuesYaml_seq_wholesale_witness :
    lookupPath (generateValuesYamlModel "my-app" "dev" "repo" "org" "main"
      "" "" (some (.mapV sampleSeqOverrideKvs))) ["application", "ports"] =
      some (.seqV [.numV 1, .numV 2]) :=
  generateValuesYaml_seq_wholesale "my-app" "dev" "repo" "org" "main" "" ""
    sampleSeqOverrideKvs ["application", "ports"] [.numV 1, .numV 2]
    (by decide) rfl

/-- Does a document's top-level mapping contain the key? -/
def topHasKey (y : Yaml) (k : String) : Bool :=
  match y with
  | .mapV kvs => hasKey kvs k
  | _ => false

/-- Counterexample to C10: a non-empty `customValues` that parses to
the YAML string scalar `x` is not ignored by the merge — lodash
enumerates a string primitive's index keys, so the merged document
gains the character entry at key `0` and differs from the default
document. -/
theorem generateValuesYaml_string_scalar_counterexample :
    topHasKey (generateValuesYamlModel "my-app" "dev" "repo" "org" "main"
      "" "" (some (.strV "x"))) "0" = true ∧
    topHasKey (generateValuesYamlModel "my-app" "dev" "repo" "org" "main"
      "" "" none) "0" = false ∧
    generateValuesYamlModel "my-app" "dev" "repo" "org" "main" "" ""
        (some (.strV "x")) ≠
      generateValuesYamlModel "my-app" "dev" "repo" "org" "main" "" "" none := by
  have h1 : topHasKey (generateValuesYamlModel "my-app" "dev" "repo" "org"
      "main" "" "" (some (.strV "x"))) "0" = true := by decide
  have h2 : topHasKey (generateValuesYamlModel "my-app" "dev" "repo" "org"
      "main" "" "" none) "0" = false := by decide
  refine ⟨h1, h2, ?_⟩
  intro h
  rw [h, h2] at h1
  exact Bool.false_ne_true h1

/-- C10 (amended): when the parsed `customValues` is a non-string
scalar — null, a boolean, or a number — `generateValuesYaml` raises no
error and the merge leaves the default document unchanged (falsy
sources are skipped outright and truthy non-string scalars have no
enumerable keys); the empty string scalar behaves the same, but a
non-empty string scalar is spread character-by-index into the document
instead of being ignored. -/
theorem generateValuesYaml_nonstring_scalar_ignored
    (applicationName environment sourceRepo sourceOrg sourceBranch
      gitopsPath applicationManifestsPath : String) (b : Bool) (n : Int) :
    generateValuesYamlModel applicationName environment sourceRepo sourceOrg
        sourceBranch gitopsPath applicationManifestsPath (some .nullV) =
      generateValuesYamlModel applicationName environment sourceRepo
        sourceOrg sourceBranch gitopsPath applicationManifestsPath none ∧
    generateValuesYamlModel applicationName environment sourceRepo sourceOrg
        sourceBranch gitopsPath applicationManifestsPath (some (.boolV b)) =
      generateValuesYamlModel applicationName environment sourceRepo
        sourceOrg sourceBranch gitopsPath applicationManifestsPath none ∧
    generateValuesYamlModel applicationName environment sourceRepo sourceOrg
        sourceBranch gitopsPath applicationManifestsPath (some (.numV n)) =
      generateValuesYamlModel applicationName environment sourceRepo
        sourceOrg sourceBranch gitopsPath applicationManifestsPath none ∧
    generateValuesYamlModel applicationName environment sourceRepo sourceOrg
        sourceBranch gitopsPath applicationManifestsPath (some (.strV "")) =
      generateValuesYamlModel applicationName environment sourceRepo
        sourceOrg sourceBranch gitopsPath applicationManifestsPath none := by
  refine ⟨rfl, rfl, rfl, ?_⟩
  simp [generateValuesYamlModel, lodashMergeTop]

/-! ## Path layout lemmas -/

theorem string_eq_of_data {a b : String} (h : a.data = b.data) : a = b := by
  cases a; cases b; exact congrArg String.mk h

theorem string_ne_empty_of_data {s : String} (h : s.data ≠ []) : s ≠ "" := by
  intro hd
  apply h
  rw [hd]

/-- A plain path segment: nonempty, separator-free, and not a
navigation segment. -/
def plainSeg (s : String) : Prop :=
  s.data ≠ [] ∧ '/' ∉ s.data ∧ s ≠ "." ∧ s ≠ ".."

instance (s : String) : Decidable (plainSeg s) := by
  unfold plainSeg
  infer_instance

theorem splitSep_ne_nil : ∀ cs : List Char, splitSep cs ≠ []
  | [] => by simp [splitSep]
  | c :: cs => by
      by_cases h : c = '/'
      · simp [splitSep, h]
      · simp only [splitSep, if_neg h]
        cases hs : splitSep cs with
        | nil => simp
        | cons a t => simp

theorem splitSep_cons_ne (c : Char) (l : List Char) (h : ¬ c = '/') :
    splitSep (c :: l) =
      match splitSep l with
      | [] => [[c]]
      | a :: t => (c :: a) :: t := by
  simp [splitSep, h]

theorem splitSep_append_sep : ∀ xs ys : List Char,
    splitSep (xs ++ '/' :: ys) = splitSep xs ++ splitSep ys
  | [], ys => by simp [splitSep]
  | c :: xs, ys => by
      by_cases h : c = '/'
      · simp [splitSep, h, splitSep_append_sep xs ys]
      · have ih := splitSep_append_sep xs ys
        have e1 : (c :: xs) ++ '/' :: ys = c :: (xs ++ '/' :: ys) := rfl
        rw [e1, splitSep_cons_ne c _ h, splitSep_cons_ne c _ h, ih]
        cases hs : splitSep xs with
        | nil => exact absurd hs (splitSep_ne_nil xs)
        | cons a t => simp

theorem splitSep_no_sep : ∀ cs : List Char, '/' ∉ cs → splitSep cs = [cs]
  | [], _ => rfl
  | c :: cs, h => by
      have hc : ¬ c = '/' := fun hc => h (hc ▸ List.mem_cons_self c cs)
      simp only [splitSep, if_neg hc,
        splitSep_no_sep cs (fun hm => h (List.mem_cons_of_mem c hm))]

theorem segsOf_plain {s : String} (h : plainSeg s) : segsOf s = [s] := by
  obtain ⟨h1, h2, _, _⟩ := h
  unfold segsOf
  rw [splitSep_no_sep s.data h2]
  simp [h1]

theorem data_append_sep (a b : String) :
    (a ++ "/" ++ b).data = a.data ++ '/' :: b.data := by
  rw [String.data_append, String.data_append]
  simp

theorem segsOf_append_sep (a b : String) :
    segsOf (a ++ "/" ++ b) = segsOf a ++ segsOf b := by
  unfold segsOf
  rw [data_append_sep, splitSep_append_sep]
  simp

theorem segsOf_slash_append (b : String) : segsOf ("/" ++ b) = segsOf b := by
  have h : ("/" ++ b).data = '/' :: b.data := by
    rw [String.data_append]
    rfl
  unfold segsOf
  rw [h]
  have e : splitSep ('/' :: b.data) = [] :: splitSep b.data := by
    simp [splitSep]
  rw [e]
  simp

theorem segsOf_append_slash (a : String) : segsOf (a ++ "/") = segsOf a := by
  have h : (a ++ "/").data = a.data ++ '/' :: [] := by
    rw [String.data_append]
  unfold segsOf
  rw [h, splitSep_append_sep]
  simp [splitSep]

theorem segsOf_renderSegs : ∀ ps : List String,
    segsOf (renderSegs ps) = ps.flatMap segsOf
  | [] => rfl
  | [s] => by simp [renderSegs]
  | s :: q :: t => by
      have e : renderSegs (s :: q :: t) = s ++ "/" ++ renderSegs (q :: t) := rfl
      rw [e, segsOf_append_sep, segsOf_renderSegs (q :: t)]
      simp

theorem flatMap_segsOf_plain : ∀ l : List String,
    (∀ s ∈ l, plainSeg s) → l.flatMap segsOf = l
  | [], _ => rfl
  | s :: rest, h => by
      simp only [List.flatMap_cons, segsOf_plain (h s (by simp)),
        flatMap_segsOf_plain rest (fun x hx => h x (by simp [hx]))]
      rfl

theorem normAux_plain : ∀ (segs : List String) (abs : Bool)
    (acc : List String), (∀ s ∈ segs, s ≠ "." ∧ s ≠ "..") →
    normAux abs acc segs = acc.reverse ++ segs
  | [], _, acc, _ => by simp [normAux]
  | s :: rest, abs, acc, h => by
      have hs := h s (by simp)
      simp only [normAux, if_neg hs.1, if_neg hs.2]
      rw [normAux_plain rest abs (s :: acc) (fun x hx => h x (by simp [hx]))]
      simp

theorem startsWithSlash_append_left {a : String} (b : String)
    (h : a.data ≠ []) : startsWithSlash (a ++ b) = startsWithSlash a := by
  unfold startsWithSlash
  rw [String.data_append]
  cases hc : a.data with
  | nil => exact absurd hc h
  | cons c cs => simp

theorem string_append_empty (s : String) : s ++ "" = s := by
  apply string_eq_of_data
  rw [String.data_append]
  simp

/-- `pathJoin` on an absolute first part with plain segments: the
result's segments are the concatenation of the parts' segments, and
the result is again a nonempty absolute path. -/
theorem pathJoin_abs_plain (parts : List String) (p : String)
    (rest : List String)
    (hps : parts.filter (fun s => s ≠ "") = p :: rest)
    (habs : startsWithSlash p = true)
    (hplain : ∀ s ∈ (p :: rest).flatMap segsOf, plainSeg s) :
    segsOf (pathJoin parts) = (p :: rest).flatMap segsOf ∧
    startsWithSlash (pathJoin parts) = true ∧
    pathJoin parts ≠ "" := by
  have hpd : p.data ≠ [] := by
    intro hd
    unfold startsWithSlash at habs
    rw [hd] at habs
    simp at habs
  have hjoined_ne : (renderSegs (p :: rest)).data ≠ [] := by
    cases rest with
    | nil => simpa [renderSegs] using hpd
    | cons q t =>
        have e : renderSegs (p :: q :: t) = p ++ "/" ++ renderSegs (q :: t) :=
          rfl
        rw [e, data_append_sep]
        simp [hpd]
  have hjq : renderSegs (p :: rest) ≠ "" := string_ne_empty_of_data hjoined_ne
  have habs' : startsWithSlash (renderSegs (p :: rest)) = true := by
    cases rest with
    | nil => simpa [renderSegs] using habs
    | cons q t =>
        have e : renderSegs (p :: q :: t) =
            (p ++ "/") ++ renderSegs (q :: t) := rfl
        rw [e, startsWithSlash_append_left _ (by
            rw [String.data_append]; simp [hpd]),
          startsWithSlash_append_left _ hpd]
        exact habs
  have hsegsJ : segsOf (renderSegs (p :: rest)) = (p :: rest).flatMap segsOf :=
    segsOf_renderSegs _
  have hnorm : normAux true [] ((p :: rest).flatMap segsOf) =
      (p :: rest).flatMap segsOf := by
    have := normAux_plain ((p :: rest).flatMap segsOf) true []
      (fun s hs => ⟨(hplain s hs).2.2.1, (hplain s hs).2.2.2⟩)
    simpa using this
  have hpj : pathJoin parts = normalizePath (renderSegs (p :: rest)) := by
    unfold pathJoin
    rw [hps]
    simp [hjq]
  rw [hpj]
  unfold normalizePath
  rw [habs', hsegsJ]
  simp only [hnorm]
  cases hf : (p :: rest).flatMap segsOf with
  | nil =>
      exact ⟨rfl, rfl, show ("/" : String) ≠ "" by decide⟩
  | cons f ft =>
      have hplain' : ∀ s ∈ f :: ft, plainSeg s := by
        rw [← hf]; exact hplain
      have hrender : segsOf (renderSegs (f :: ft)) = f :: ft := by
        rw [segsOf_renderSegs, flatMap_segsOf_plain _ hplain']
      have hslash : ("/" : String).data ≠ [] := by decide
      cases ht : endsWithSlash (renderSegs (p :: rest)) with
      | false =>
          refine ⟨?_, ?_, ?_⟩
          · show segsOf (("/" ++ renderSegs (f :: ft)) ++ "") = f :: ft
            rw [string_append_empty, segsOf_slash_append, hrender]
          · show startsWithSlash (("/" ++ renderSegs (f :: ft)) ++ "") = true
            rw [string_append_empty,
              startsWithSlash_append_left (renderSegs (f :: ft)) hslash]
            rfl
          · show (("/" ++ renderSegs (f :: ft)) ++ "") ≠ ""
            rw [string_append_empty]
            apply string_ne_empty_of_data
            rw [String.data_append]
            simp
      | true =>
          have h1 : (("/" ++ renderSegs (f :: ft)) : String).data ≠ [] := by
            rw [String.data_append]
            simp
          refine ⟨?_, ?_, ?_⟩
          · show segsOf (("/" ++ renderSegs (f :: ft)) ++ "/") = f :: ft
            rw [segsOf_append_slash, segsOf_slash_append, hrender]
          · show startsWithSlash (("/" ++ renderSegs (f :: ft)) ++ "/") = true
            rw [startsWithSlash_append_left "/" h1,
              startsWithSlash_append_left (renderSegs (f :: ft)) hslash]
            rfl
          · show (("/" ++ renderSegs (f :: ft)) ++ "/") ≠ ""
            apply string_ne_empty_of_data
            rw [String.data_append, String.data_append]
            simp

theorem segsOf_empty : segsOf "" = [] := rfl

theorem data_ne_of_startsWithSlash {s : String}
    (h : startsWithSlash s = true) : s.data ≠ [] := by
  intro hd
  unfold startsWithSlash at h
  rw [hd] at h
  simp at h

theorem filter_ne_empty_eq_self : ∀ l : List String, (∀ s ∈ l, s ≠ "") →
    l.filter (fun s => s ≠ "") = l
  | [], _ => rfl
  | s :: rest, h => by
      have hs : decide (s ≠ "") = true := decide_eq_true (h s (by simp))
      rw [List.filter_cons]
      rw [if_pos hs]
      rw [filter_ne_empty_eq_self rest (fun x hx => h x (by simp [hx]))]

/-- `pathJoin` over nonempty parts, absolute head, plain segments. -/
theorem pathJoin_cons_plain (p : String) (rest : List String)
    (hne : ∀ s ∈ p :: rest, s ≠ "")
    (habs : startsWithSlash p = true)
    (hplain : ∀ s ∈ (p :: rest).flatMap segsOf, plainSeg s) :
    segsOf (pathJoin (p :: rest)) = (p :: rest).flatMap segsOf ∧
    startsWithSlash (pathJoin (p :: rest)) = true ∧
    pathJoin (p :: rest) ≠ "" :=
  pathJoin_abs_plain (p :: rest) p rest
    (filter_ne_empty_eq_self (p :: rest) hne) habs hplain

theorem plain_append {l1 l2 : List String} (h1 : ∀ s ∈ l1, plainSeg s)
    (h2 : ∀ s ∈ l2, plainSeg s) : ∀ s ∈ l1 ++ l2, plainSeg s := by
  intro x hx
  rcases List.mem_append.mp hx with h | h
  · exact h1 x h
  · exact h2 x h

theorem plain_single {s : String} (h : plainSeg s) :
    ∀ x ∈ [s], plainSeg x := by
  intro x hx
  simp at hx
  exact hx ▸ h

/-- The concrete path layout of `commitAndPush`: given a normal
absolute working-copy root and plain path inputs, the pointer-manifest
file lands at
`<root>/<gitopsPath>/argocd-apps/<applicationName>/<environment>.yaml`
and the raw-manifests directory at
`<root>/<gitopsPath>/<applicationName>/<environment>/<applicationManifestsPath>`,
stated as segment-list equations. -/
theorem targetPaths_layout (root gp appName envr mp : String)
    (habs : startsWithSlash root = true)
    (hroot : ∀ s ∈ segsOf root, plainSeg s)
    (hgp : ∀ s ∈ segsOf gp, plainSeg s)
    (happ : plainSeg appName)
    (henv : plainSeg envr)
    (heny : plainSeg (envr ++ ".yaml"))
    (hmp : ∀ s ∈ segsOf mp, plainSeg s) :
    segsOf (pathJoin [pathJoin [pathJoin [root, gp], "argocd-apps", appName],
        envr ++ ".yaml"]) =
      segsOf root ++ segsOf gp ++ ["argocd-apps", appName, envr ++ ".yaml"] ∧
    segsOf (pathJoin [pathJoin [root, gp], appName, envr, mp]) =
      segsOf root ++ segsOf gp ++ [appName, envr] ++ segsOf mp := by
  have hrootne : root ≠ "" :=
    string_ne_empty_of_data (data_ne_of_startsWithSlash habs)
  have happne : appName ≠ "" := string_ne_empty_of_data happ.1
  have henvne : envr ≠ "" := string_ne_empty_of_data henv.1
  have henyne : envr ++ ".yaml" ≠ "" := string_ne_empty_of_data heny.1
  have hargoplain : plainSeg "argocd-apps" := by decide
  -- the base path <root>/<gitopsPath>
  have hbase : segsOf (pathJoin [root, gp]) = segsOf root ++ segsOf gp ∧
      startsWithSlash (pathJoin [root, gp]) = true ∧
      pathJoin [root, gp] ≠ "" := by
    by_cases hgpe : gp = ""
    · subst hgpe
      have hfilt : List.filter (fun s => s ≠ "") [root, ""] = [root] := by
        simp [List.filter_cons, hrootne]
      have h := pathJoin_abs_plain [root, ""] root [] hfilt habs
        (by simpa using hroot)
      refine ⟨?_, h.2.1, h.2.2⟩
      rw [h.1]
      simp [segsOf_empty]
    · have h := pathJoin_cons_plain root [gp]
        (by intro x hx
            rcases List.mem_cons.mp hx with h1 | h1
            · exact h1 ▸ hrootne
            · simp at h1
              exact h1 ▸ hgpe)
        habs
        (by simp only [List.flatMap_cons, List.flatMap_nil, List.append_nil]
            exact plain_append hroot hgp)
      refine ⟨?_, h.2.1, h.2.2⟩
      rw [h.1]
      simp
  obtain ⟨hb1, hb2, hb3⟩ := hbase
  have hbplain : ∀ s ∈ segsOf (pathJoin [root, gp]), plainSeg s := by
    rw [hb1]
    exact plain_append hroot hgp
  -- the ArgoCD app directory <base>/argocd-apps/<appName>
  have hdir : segsOf (pathJoin [pathJoin [root, gp], "argocd-apps", appName]) =
      segsOf root ++ segsOf gp ++ ["argocd-apps", appName] ∧
      startsWithSlash (pathJoin [pathJoin [root, gp], "argocd-apps",
        appName]) = true ∧
      pathJoin [pathJoin [root, gp], "argocd-apps", appName] ≠ "" := by
    have h := pathJoin_cons_plain (pathJoin [root, gp])
      ["argocd-apps", appName]
      (by intro x hx
          rcases List.mem_cons.mp hx with h1 | h1
          · exact h1 ▸ hb3
          rcases List.mem_cons.mp h1 with h2 | h2
          · intro he
            rw [h2] at he
            exact absurd he (by decide)
          · simp at h2
            exact h2 ▸ happne)
      hb2
      (by simp only [List.flatMap_cons, List.flatMap_nil, List.append_nil]
          rw [show segsOf "argocd-apps" = ["argocd-apps"] from rfl,
            segsOf_plain happ]
          exact plain_append hbplain
            (plain_append (plain_single hargoplain) (plain_single happ)))
    refine ⟨?_, h.2.1, h.2.2⟩
    rw [h.1]
    simp only [List.flatMap_cons, List.flatMap_nil, List.append_nil]
    rw [hb1, show segsOf "argocd-apps" = ["argocd-apps"] from rfl,
      segsOf_plain happ]
    simp
  obtain ⟨hd1, hd2, hd3⟩ := hdir
  have hdplain : ∀ s ∈ segsOf (pathJoin [pathJoin [root, gp], "argocd-apps",
      appName]), plainSeg s := by
    rw [hd1]
    exact plain_append (plain_append hroot hgp)
      (by intro x hx
          rcases List.mem_cons.mp hx with h1 | h1
          · exact h1 ▸ hargoplain
          · simp at h1
            exact h1 ▸ happ)
  constructor
  · -- the pointer manifest file <dir>/<envr>.yaml
    have h := pathJoin_cons_plain
      (pathJoin [pathJoin [root, gp], "argocd-apps", appName])
      [envr ++ ".yaml"]
      (by intro x hx
          rcases List.mem_cons.mp hx with h1 | h1
          · exact h1 ▸ hd3
          · simp at h1
            exact h1 ▸ henyne)
      hd2
      (by simp only [List.flatMap_cons, List.flatMap_nil, List.append_nil]
          rw [segsOf_plain heny]
          exact plain_append hdplain (plain_single heny))
    rw [h.1]
    simp only [List.flatMap_cons, List.flatMap_nil, List.append_nil]
    rw [hd1, segsOf_plain heny]
    simp
  · -- the raw manifests directory <base>/<appName>/<envr>/<mp>
    by_cases hmpe : mp = ""
    · subst hmpe
      have hfilt : List.filter (fun s => s ≠ "")
          [pathJoin [root, gp], appName, envr, ""] =
          [pathJoin [root, gp], appName, envr] := by
        simp [List.filter_cons, hb3, happne, henvne]
      have h := pathJoin_abs_plain
        [pathJoin [root, gp], appName, envr, ""]
        (pathJoin [root, gp]) [appName, envr] hfilt hb2
        (by simp only [List.flatMap_cons, List.flatMap_nil, List.append_nil]
            rw [segsOf_plain happ, segsOf_plain henv]
            exact plain_append hbplain
              (plain_append (plain_single happ) (plain_single henv)))
      rw [h.1]
      simp only [List.flatMap_cons, List.flatMap_nil, List.append_nil]
      rw [hb1, segsOf_plain happ, segsOf_plain henv, segsOf_empty]
      simp
    · have h := pathJoin_cons_plain (pathJoin [root, gp]) [appName, envr, mp]
        (by intro x hx
            rcases List.mem_cons.mp hx with h1 | h1
            · exact h1 ▸ hb3
            rcases List.mem_cons.mp h1 with h2 | h2
            · exact h2 ▸ happne
            rcases List.mem_cons.mp h2 with h3 | h3
            · exact h3 ▸ henvne
            · simp at h3
              exact h3 ▸ hmpe)
        hb2
        (by simp only [List.flatMap_cons, List.flatMap_nil, List.append_nil]
            rw [segsOf_plain happ, segsOf_plain henv]
            exact plain_append hbplain
              (plain_append (plain_single happ)
                (plain_append (plain_single henv) hmp)))
      rw [h.1]
      simp only [List.flatMap_cons, List.flatMap_nil, List.append_nil]
      rw [hb1, segsOf_plain happ, segsOf_plain henv]
      simp

/-- The trace's target paths equal the nested `path.join` expressions
from the source, in every branch of `commitAndPush`. -/
theorem commitAndPushModel_paths (a : CPArgs) (env : CPEnv) :
    (commitAndPushModel a env).argocdAppTargetFile =
      pathJoin [pathJoin [pathJoin [a.gitopsRepoLocalPath, a.gitopsPath],
        "argocd-apps", a.applicationName], a.environment ++ ".yaml"] ∧
    (commitAndPushModel a env).appManifestsTargetDir =
      pathJoin [pathJoin [a.gitopsRepoLocalPath, a.gitopsPath],
        a.applicationName, a.environment, a.applicationManifestsPath] := by
  by_cases hd : env.gitDiffExitCode = 0
  · simp [commitAndPushModel, hd]
  · cases hp : pushPhase env.pushSucceeds env.pushErrMsg <;>
      simp [commitAndPushModel, hd, hp]

/-- C7: for every invocation of `commitAndPush` with a normal absolute
working-copy root and plain path inputs, the rendered pointer manifest
is written to
`<workingCopyRoot>/<gitopsPath>/argocd-apps/<applicationName>/<environment>.yaml`
and the raw manifests are copied under
`<workingCopyRoot>/<gitopsPath>/<applicationName>/<environment>/<applicationManifestsPath>/`
(stated as segment-list equations over the computed target paths). -/
theorem commitAndPush_path_layout (a : CPArgs) (env : CPEnv)
    (habs : startsWithSlash a.gitopsRepoLocalPath = true)
    (hroot : ∀ s ∈ segsOf a.gitopsRepoLocalPath, plainSeg s)
    (hgp : ∀ s ∈ segsOf a.gitopsPath, plainSeg s)
    (happ : plainSeg a.applicationName)
    (henv : plainSeg a.environment)
    (heny : plainSeg (a.environment ++ ".yaml"))
    (hmp : ∀ s ∈ segsOf a.applicationManifestsPath, plainSeg s) :
    segsOf (commitAndPushModel a env).argocdAppTargetFile =
      segsOf a.gitopsRepoLocalPath ++ segsOf a.gitopsPath ++
        ["argocd-apps", a.applicationName, a.environment ++ ".yaml"] ∧
    segsOf (commitAndPushModel a env).appManifestsTargetDir =
      segsOf a.gitopsRepoLocalPath ++ segsOf a.gitopsPath ++
        [a.applicationName, a.environment] ++
        segsOf a.applicationManifestsPath := by
  have hpaths := commitAndPushModel_paths a env
  have h := targetPaths_layout a.gitopsRepoLocalPath a.gitopsPath
    a.applicationName a.environment a.applicationManifestsPath
    habs hroot hgp happ henv heny hmp
  rw [hpaths.1, hpaths.2]
  exact h

/-- Witness for C7: the claim's concrete scenario — application
`my-app`, environment `dev`, empty `gitopsPath` — puts the pointer
manifest at `argocd-apps/my-app/dev.yaml` relative to the working-copy
root `/w`. -/
theorem commitAndPush_path_layout_witness :
    segsOf (commitAndPushModel
      { sampleArgs with
          gitopsRepoLocalPath := "/w", gitopsPath := "",
          applicationName := "my-app", environment := "dev",
          applicationManifestsPath := "" }
      envFailTwice).argocdAppTargetFile =
      ["w", "argocd-apps", "my-app", "dev.yaml"] ∧
    segsOf (commitAndPushModel
      { sampleArgs with
          gitopsRepoLocalPath := "/w", gitopsPath := "",
          applicationName := "my-app", environment := "dev",
          applicationManifestsPath := "" }
      envFailTwice).appManifestsTargetDir = ["w", "my-app", "dev"] := by
  have h := commitAndPush_path_layout
    { sampleArgs with
        gitopsRepoLocalPath := "/w", gitopsPath := "",
        applicationName := "my-app", environment := "dev",
        applicationManifestsPath := "" }
    envFailTwice
    (by decide) (by decide) (by decide) (by decide) (by decide) (by decide)
    (by decide)
  rw [h.1, h.2]
  refine ⟨by decide, by decide⟩

end GitopsPush